import Mathlib

/-!
Verification of the APR (automated program repair) phase-1 engine.

Programs are ordered sequences of source lines (spec section 3); a line is a
list of characters carrying its indentation and trailing newline.  The
mutation operators, crossover, fitness evaluation, fault localization and the
generational driver are embedded from src/phase1/mutation.py,
src/phase1/test_harness.py and src/phase1/evolution.py.

External effects are abstracted as oracles:
* the Python syntax validator (is_valid_syntax, an ast.parse call) is an
  arbitrary function validFn from programs to Bool;
* the PRNG draws of random.choice / random.randint / random.uniform are
  explicit choice arguments;
* coverage tracing (sys.settrace) is a function cov from test cases to
  finsets of line numbers;
* loading a variant and invoking its entry point is a function producing an
  Outcome per test case (none models a load error or missing function).

Python exceptions that escape a component (IndexError of sorted_pop[0],
ValueError of zip(*[]) in select_line_by_weight, random.choice([])) are
modelled as a none / crash result that propagates, exactly as the unhandled
exception would.  Python list indexing lines[i] is modelled with getD / set;
every claim about an indexed operator carries the in-range hypothesis under
which the two agree.
-/

namespace APR

/-- A source line: the verbatim characters, including indentation and the
trailing newline. -/
abbrev Line := List Char

/-- A program is an ordered sequence of lines (mutation.py operates on
`lines` lists produced by readlines). -/
abbrev Program := List Line

/-- Python str whitespace (the characters stripped by str.strip / str.lstrip). -/
def isPySpace (c : Char) : Bool :=
  c = ' ' || c = '\t' || c = '\n' || c = '\r' || c = '\x0b' || c = '\x0c'

/-- Python line.strip(): drop whitespace from both ends. -/
def pyStrip (l : Line) : Line :=
  ((l.dropWhile isPySpace).reverse.dropWhile isPySpace).reverse

/-- The indentation prefix `original[:len(original) - len(original.lstrip())]`:
the maximal leading whitespace run. -/
def indentOf (l : Line) : Line := l.takeWhile isPySpace

/-- mutation.py mutate_delete: replace the target line with an
indentation-preserving pass statement. -/
def mutate_delete (lines : Program) (target : ℕ) : Program :=
  let original := lines.getD target []
  lines.set target (indentOf original ++ "pass\n".toList)

/-- mutation.py mutate_insert: insert the stripped source line, re-indented to
the target's indentation, after the target line. -/
def mutate_insert (lines : Program) (target source : ℕ) : Program :=
  let sourceLine := lines.getD source []
  let targetLine := lines.getD target []
  lines.insertIdx (target + 1) (indentOf targetLine ++ pyStrip sourceLine ++ ['\n'])

/-- mutation.py mutate_swap: exchange the stripped contents of two lines while
keeping each position's original indentation; a no-op when either line is
blank. -/
def mutate_swap (lines : Program) (a b : ℕ) : Program :=
  let lineA := lines.getD a []
  let lineB := lines.getD b []
  if pyStrip lineA = [] ∨ pyStrip lineB = [] then lines
  else
    (lines.set a (indentOf lineA ++ pyStrip lineB ++ ['\n'])).set b
      (indentOf lineB ++ pyStrip lineA ++ ['\n'])

/-- The six comparison operators recognised by COMPARISON_PATTERN. -/
inductive CmpOp : Type
  | lt | gt | le | ge | eq | ne
deriving DecidableEq

/-- The character representation of a comparison operator. -/
def cmpStr : CmpOp → Line
  | .lt => ['<']
  | .gt => ['>']
  | .le => ['<', '=']
  | .ge => ['>', '=']
  | .eq => ['=', '=']
  | .ne => ['!', '=']

/-- COMPARISON_MUTATIONS: the replacement set of each operator. -/
def cmpMuts : CmpOp → List CmpOp
  | .lt => [.gt, .le, .ne]
  | .gt => [.lt, .ge, .ne]
  | .le => [.ge, .lt, .eq]
  | .ge => [.le, .gt, .eq]
  | .eq => [.ne, .le, .ge]
  | .ne => [.eq, .lt, .gt]

/-- Scanner for COMPARISON_PATTERN.finditer: at each position the two-character
operators are tried before the one-character ones, matches do not overlap, and
each match is reported with its start position. -/
def cmpMatchesAux : ℕ → List Char → List (ℕ × CmpOp)
  | _, [] => []
  | i, [c] =>
    if c = '<' then [(i, .lt)] else if c = '>' then [(i, .gt)] else []
  | i, c1 :: c2 :: rest =>
    if c1 = '<' ∧ c2 = '=' then (i, .le) :: cmpMatchesAux (i + 2) rest
    else if c1 = '>' ∧ c2 = '=' then (i, .ge) :: cmpMatchesAux (i + 2) rest
    else if c1 = '=' ∧ c2 = '=' then (i, .eq) :: cmpMatchesAux (i + 2) rest
    else if c1 = '!' ∧ c2 = '=' then (i, .ne) :: cmpMatchesAux (i + 2) rest
    else if c1 = '<' then (i, .lt) :: cmpMatchesAux (i + 1) (c2 :: rest)
    else if c1 = '>' then (i, .gt) :: cmpMatchesAux (i + 1) (c2 :: rest)
    else cmpMatchesAux (i + 1) (c2 :: rest)

/-- All comparison-operator matches of a line, leftmost first. -/
def cmpMatches (l : Line) : List (ℕ × CmpOp) := cmpMatchesAux 0 l

/-- mutation.py mutate_expression: pick a comparison-operator match of the
target line (mPick) and a replacement from its mutation set (rPick); none when
the line has no comparison operator. -/
def mutate_expression (mPick rPick : ℕ) (lines : Program) (target : ℕ) :
    Option Program :=
  let line := lines.getD target []
  match cmpMatches line with
  | [] => none
  | m0 :: ms =>
    let m := (m0 :: ms).getD (mPick % (m0 :: ms).length) m0
    let repl := (cmpMuts m.2).getD (rPick % (cmpMuts m.2).length) m.2
    some (lines.set target
      (line.take m.1 ++ cmpStr repl ++ line.drop (m.1 + (cmpStr m.2).length)))

/-- The two boolean connectives recognised by BOOLEAN_PATTERN. -/
inductive BConn : Type
  | bAnd | bOr
deriving DecidableEq

/-- The matched text of a connective, spaces included, exactly as in
BOOLEAN_PATTERN = ( and | or ). -/
def bconnStr : BConn → Line
  | .bAnd => " and ".toList
  | .bOr => " or ".toList

/-- BOOLEAN_SWAPS: each connective maps to the other. -/
def bconnSwap : BConn → BConn
  | .bAnd => .bOr
  | .bOr => .bAnd

/-- Scanner for BOOLEAN_PATTERN.finditer: non-overlapping, space-delimited
matches of " and " and " or ", reported with start positions.  fuel bounds
the number of scan steps; each step consumes at least one character, so
fuel = length of the line suffices. -/
def boolMatchesFuel : ℕ → ℕ → List Char → List (ℕ × BConn)
  | 0, _, _ => []
  | fuel + 1, i, l =>
    if l.take 5 = " and ".toList then
      (i, .bAnd) :: boolMatchesFuel fuel (i + 5) (l.drop 5)
    else if l.take 4 = " or ".toList then
      (i, .bOr) :: boolMatchesFuel fuel (i + 4) (l.drop 4)
    else
      match l with
      | [] => []
      | _ :: rest => boolMatchesFuel fuel (i + 1) rest

/-- All space-delimited connective matches of a line, leftmost first. -/
def boolMatches (l : Line) : List (ℕ × BConn) := boolMatchesFuel l.length 0 l

/-- mutation.py mutate_boolean: pick a connective match of the target line
(mPick) and replace it, spaces included, by the swapped connective; none when
the pattern has no match. -/
def mutate_boolean (mPick : ℕ) (lines : Program) (target : ℕ) :
    Option Program :=
  let line := lines.getD target []
  match boolMatches line with
  | [] => none
  | m0 :: ms =>
    let m := (m0 :: ms).getD (mPick % (m0 :: ms).length) m0
    some (lines.set target
      (line.take m.1 ++ bconnStr (bconnSwap m.2) ++
        line.drop (m.1 + (bconnStr m.2).length)))

/-- One-point offspring `parent_a[:pivot] + parent_b[pivot:]`. -/
def offspring (a b : Program) (pivot : ℕ) : Program :=
  a.take pivot ++ b.drop pivot

/-- The attempt loop of mutation.py crossover: at each of the remaining
attempts a pivot is drawn by `random.randint(1, min_len - 1)` (modelled as
1 + pivots k % (minLen - 1), which ranges over [1, minLen-1]), both offspring
are built and validated; both valid returns the pair, exactly one valid
returns that offspring duplicated, neither valid retries. -/
def crossoverAttempts (validFn : Program → Bool) (pivots : ℕ → ℕ)
    (a b : Program) (minLen : ℕ) : ℕ → ℕ → Option (Program × Program)
  | _, 0 => none
  | k, fuel + 1 =>
    let p := 1 + pivots k % (minLen - 1)
    let o1 := offspring a b p
    let o2 := offspring b a p
    if validFn o1 then
      if validFn o2 then some (o1, o2) else some (o1, o1)
    else if validFn o2 then some (o2, o2)
    else crossoverAttempts validFn pivots a b minLen (k + 1) fuel

/-- mutation.py crossover: fail on an empty parent or min length at most one,
otherwise try up to five pivots.  validFn is the is_valid_syntax oracle
(ast.parse), pivots the PRNG draws. -/
def crossover (validFn : Program → Bool) (pivots : ℕ → ℕ) (a b : Program) :
    Option (Program × Program) :=
  if a = [] ∨ b = [] then none
  else if min a.length b.length ≤ 1 then none
  else crossoverAttempts validFn pivots a b (min a.length b.length) 0 5

/-- The scan of select_line_by_weight: accumulate weights and return the first
index whose running sum exceeds r; fallback is lines[0]. -/
def rouletteScan (r : ℚ) (fallback : ℕ) : ℚ → List (ℕ × ℚ) → ℕ
  | _, [] => fallback
  | current, (idx, w) :: rest =>
    if current + w > r then idx else rouletteScan r fallback (current + w) rest

/-- mutation.py select_line_by_weight: roulette-wheel selection over the
weighted candidate list.  On the empty list, `lines, weights = zip(*[])`
raises ValueError; this is the none result.  When the total weight is zero the
index is drawn uniformly (random.choice, modelled by cPick); otherwise a draw
r from uniform(0, total) drives the scan. -/
def select_line_by_weight (cPick : ℕ) (r : ℚ) (wl : List (ℕ × ℚ)) :
    Option ℕ :=
  match wl with
  | [] => none
  | w0 :: _ =>
    let total := (wl.map Prod.snd).sum
    if total = 0 then some ((wl.getD (cPick % wl.length) w0).1)
    else some (rouletteScan r w0.1 0 wl)

/-- The five mutation operators. -/
inductive MutOp : Type
  | delete | insert | swap | expr | boolean
deriving DecidableEq

/-- The operator multiset of apply_random_mutation: expression and boolean are
doubly weighted. -/
def opList : List MutOp :=
  [.delete, .insert, .swap, .expr, .expr, .boolean, .boolean]

/-- The PRNG draws consumed by one apply_random_mutation call: the uniform
draw rT and zero-total fallback cPick of select_line_by_weight, the source
pick, the operator pick, and the match / replacement picks of the
expression and boolean operators. -/
structure Choices : Type where
  rT : ℚ
  cPick : ℕ
  sPick : ℕ
  oPick : ℕ
  mPick : ℕ
  rPick : ℕ

/-- Result of one apply_random_mutation call: crash models an uncaught Python
exception (ValueError from zip(*[]) on an empty candidate list), failed the
None return that the caller retries, ok a returned variant. -/
inductive MutOut : Type
  | crash | failed | ok (p : Program)
deriving DecidableEq

/-- The operator dispatch of apply_random_mutation: delete, insert and swap
always produce a candidate; expression and boolean may signal failure. -/
def applyOp (ch : Choices) (lines : Program) (target source : ℕ) :
    MutOp → Option Program
  | .delete => some (mutate_delete lines target)
  | .insert => some (mutate_insert lines target source)
  | .swap => some (mutate_swap lines target source)
  | .expr => mutate_expression ch.mPick ch.rPick lines target
  | .boolean => mutate_boolean ch.mPick lines target

/-- The final syntax check of apply_random_mutation: an operator failure or an
invalid mutant is discarded (None to the caller), a valid mutant is
returned. -/
def gateMutation (validFn : Program → Bool) : Option Program → MutOut
  | none => .failed
  | some m => if validFn m then .ok m else .failed

/-- mutation.py apply_random_mutation: build the candidate list from the
weighted lines (1-based line numbers made 0-based; lines of positive weight,
or all localized lines at weight 1.0 when none is positive), select target and
source, pick an operator, apply it, and accept the result only when the
syntax validator does. -/
def apply_random_mutation (validFn : Program → Bool) (ch : Choices)
    (lines : Program) (weighted : List (ℕ × ℚ)) : MutOut :=
  let filtered := weighted.filterMap
    (fun lw => if lw.2 > 0 then some (lw.1 - 1, lw.2) else none)
  let candidates :=
    if filtered = [] then weighted.map (fun lw => (lw.1 - 1, (1 : ℚ)))
    else filtered
  match candidates, select_line_by_weight ch.cPick ch.rT candidates with
  | _, none => .crash
  | [], _ => .crash
  | c0 :: cs, some target =>
    gateMutation validFn (applyOp ch lines target
      ((c0 :: cs).getD (ch.sPick % (c0 :: cs).length) c0).1
      (opList.getD (ch.oPick % opList.length) .delete))

/-- A test case: an ordered argument list and the expected return value
(tests.json cases). -/
structure TestCase (α : Type) : Type where
  input : List α
  expected : α

/-- Outcome of one sandboxed invocation: ok with the returned value, or fail
covering timeout, runtime error and any other non-ok reason (the harness
treats them all alike: zero credit, continue). -/
inductive Outcome (α : Type) : Type
  | ok (v : α)
  | fail

/-- A test battery as loaded by TestHarness._load_tests: the two weights, the
two ordered case lists, and the configured max_fitness value. -/
structure Battery (α : Type) : Type where
  posW : ℚ
  negW : ℚ
  pos : List (TestCase α)
  neg : List (TestCase α)
  maxFitness : ℚ

/-- The per-case loop of evaluate_file over one list of tests: on an ok
outcome structurally equal to the expected value add the weight, otherwise
add nothing and continue; every case is visited. -/
def caseFold {α : Type} [DecidableEq α] (run : TestCase α → Outcome α)
    (w : ℚ) : List (TestCase α) → ℚ → ℚ
  | [], acc => acc
  | t :: rest, acc =>
    let acc' :=
      match run t with
      | .ok v => if v = t.expected then acc + w else acc
      | .fail => acc
    caseFold run w rest acc'

/-- test_harness.py evaluate_file: loadRes is none when loading the variant or
resolving the entry point fails (the harness returns 0.0); otherwise run the
positive cases then the negative cases, summing the weights of the passes. -/
def evaluate_file {α : Type} [DecidableEq α]
    (loadRes : Option (TestCase α → Outcome α)) (b : Battery α) : ℚ :=
  match loadRes with
  | none => 0
  | some run => caseFold run b.negW b.neg (caseFold run b.posW b.pos 0)

/-- The credit a single case earns: its weight when the invocation is ok and
the value structurally equals the expected one, else zero. -/
def caseScore {α : Type} [DecidableEq α] (w : ℚ) (t : TestCase α)
    (o : Outcome α) : ℚ :=
  match o with
  | .ok v => if v = t.expected then w else 0
  | .fail => 0

/-- The effective outcome of a case: fail when the variant did not load, else
the invocation outcome. -/
def effRun {α : Type} (loadRes : Option (TestCase α → Outcome α))
    (t : TestCase α) : Outcome α :=
  match loadRes with
  | none => .fail
  | some run => run t

/-- The spec's maximum fitness formula F_max = |positive| * w_pos +
|negative| * w_neg. -/
def fMax {α : Type} (b : Battery α) : ℚ :=
  b.pos.length * b.posW + b.neg.length * b.negW

/-- The coverage union lines_p (or lines_f) of run_fault_localization: the
union over the given tests of the traced line sets. -/
def coveredUnion {α : Type} (cov : TestCase α → Finset ℕ)
    (tests : List (TestCase α)) : Finset ℕ :=
  tests.foldl (fun s t => s ∪ cov t) ∅

/-- test_harness.py run_fault_localization: P and F are the coverage unions of
the positive and negative tests; over sorted(P ∪ F), a line only in F weighs
1.0, a line in both weighs 0.1, a line only in P weighs 0.0. -/
def run_fault_localization {α : Type} (cov : TestCase α → Finset ℕ)
    (b : Battery α) : List (ℕ × ℚ) :=
  let lp := coveredUnion cov b.pos
  let lf := coveredUnion cov b.neg
  ((lp ∪ lf).sort (· ≤ ·)).map
    (fun l => (l, if l ∈ lf then (if l ∈ lp then 1 / 10 else 1) else 0))

/-- The retry loop around apply_random_mutation (up to 10 attempts in
initialize_population and repopulate): some none when every attempt returned
None, some (some m) on the first accepted mutant, none when an attempt raised
(the exception propagates out of the loop). -/
def attemptMutation (validFn : Program → Bool) (ch : ℕ → Choices)
    (lines : Program) (weighted : List (ℕ × ℚ)) :
    ℕ → ℕ → Option (Option Program)
  | _, 0 => some none
  | a, fuel + 1 =>
    match apply_random_mutation validFn (ch a) lines weighted with
    | .crash => none
    | .ok m => some (some m)
    | .failed => attemptMutation validFn ch lines weighted (a + 1) fuel

/-- The variant slots 1 .. population_size - 1 of initialize_population: each
is a mutant of the original after at most 10 attempts, or a clone of the
original on persistent failure; an uncaught exception aborts the whole
initialization. -/
def initSlots (validFn : Program → Bool) (ich : ℕ → ℕ → Choices)
    (original : Program) (weighted : List (ℕ × ℚ)) :
    ℕ → ℕ → Option (List Program)
  | _, 0 => some []
  | i, n + 1 =>
    match attemptMutation validFn (ich i) original weighted 0 10 with
    | none => none
    | some mres =>
      match initSlots validFn ich original weighted (i + 1) n with
      | none => none
      | some rest => some (mres.getD original :: rest)

/-- evolution.py initialize_population: slot 0 is the unmutated original, the
remaining population_size - 1 slots are mutants (or clones). -/
def initialize_population (validFn : Program → Bool) (ich : ℕ → ℕ → Choices)
    (original : Program) (weighted : List (ℕ × ℚ)) (popSize : ℕ) :
    Option (List Program) :=
  (initSlots validFn ich original weighted 1 (popSize - 1)).map
    (fun rest => original :: rest)

/-- The comparison used to model Python sorted(scored, key=fitness,
reverse=True) on index-decorated elements: a precedes b when a's fitness is
larger, or the fitnesses are equal and a's original position is not later.
Stability of CPython's sort is exactly sortedness under this relation of the
enumerated list. -/
def selSortRel {α : Type} (a b : ℕ × (α × ℚ)) : Prop :=
  b.2.2 < a.2.2 ∨ (a.2.2 = b.2.2 ∧ a.1 ≤ b.1)

instance selSortRelDecidable {α : Type} : DecidableRel (selSortRel (α := α)) :=
  fun a b =>
    inferInstanceAs (Decidable (b.2.2 < a.2.2 ∨ (a.2.2 = b.2.2 ∧ a.1 ≤ b.1)))

instance selSortRelTotal {α : Type} : IsTotal (ℕ × (α × ℚ)) selSortRel := by
  constructor
  intro a b
  rcases lt_trichotomy a.2.2 b.2.2 with h | h | h
  · exact Or.inr (Or.inl h)
  · rcases Nat.le_total a.1 b.1 with h1 | h1
    · exact Or.inl (Or.inr ⟨h, h1⟩)
    · exact Or.inr (Or.inr ⟨h.symm, h1⟩)
  · exact Or.inl (Or.inl h)

instance selSortRelTrans {α : Type} : IsTrans (ℕ × (α × ℚ)) selSortRel := by
  constructor
  intro a b c hab hbc
  rcases hab with h1 | ⟨e1, l1⟩
  · rcases hbc with h2 | ⟨e2, _⟩
    · exact Or.inl (h2.trans h1)
    · exact Or.inl (e2 ▸ h1)
  · rcases hbc with h2 | ⟨e2, l2⟩
    · exact Or.inl (e1 ▸ h2)
    · exact Or.inr ⟨e1.trans e2, l1.trans l2⟩

/-- Python sorted(scored_population, key=fitness, reverse=True): the stable
descending sort, realised as a sort of the enumerated list under
selSortRel with the indices erased. -/
def pySortScored {α : Type} (scored : List (α × ℚ)) : List (α × ℚ) :=
  (List.insertionSort selSortRel scored.enum).map Prod.snd

/-- evolution.py select_survivors: sort by fitness descending (stable), keep
the top int(N * SURVIVOR_RATIO) = N / 2 variants, and report the best fitness
sorted_pop[0][1]; on an empty population that indexing raises (none). -/
def select_survivors {α : Type} (scored : List (α × ℚ)) :
    Option (List α × ℚ) :=
  match pySortScored scored with
  | [] => none
  | best :: rest =>
    some (((best :: rest).take (scored.length / 2)).map Prod.fst, best.2)

/-- The while loop of evolution.py repopulate: as long as the population is
short, pick a uniform-random survivor (pk; random.choice raises on an empty
survivor list, the none case) and append its mutant (or a clone after 10
failed attempts); each iteration appends exactly one member, so the remaining
count popSize - |survivors| is the fuel. -/
def repopLoop (validFn : Program → Bool) (pk : ℕ → ℕ)
    (rch : ℕ → ℕ → Choices) (weighted : List (ℕ × ℚ))
    (survivors : List Program) : List Program → ℕ → ℕ → Option (List Program)
  | cur, _, 0 => some cur
  | cur, k, fuel + 1 =>
    match survivors with
    | [] => none
    | s0 :: _ =>
      let parent := survivors.getD (pk k % survivors.length) s0
      match attemptMutation validFn (rch k) parent weighted 0 10 with
      | none => none
      | some mres =>
        repopLoop validFn pk rch weighted survivors
          (cur ++ [mres.getD parent]) (k + 1) fuel

/-- evolution.py repopulate: fill the survivor list back to population_size by
mutation. -/
def repopulate (validFn : Program → Bool) (pk : ℕ → ℕ)
    (rch : ℕ → ℕ → Choices) (weighted : List (ℕ × ℚ))
    (survivors : List Program) (popSize : ℕ) : Option (List Program) :=
  repopLoop validFn pk rch weighted survivors survivors 0
    (popSize - survivors.length)

/-- The scan of one generation's scored population in run_evolution: the first
variant whose fitness reaches max_fitness is a success; otherwise the
best-so-far variant and fitness are updated along the way. -/
def scanScored {α : Type} (maxF : ℚ) :
    List (α × ℚ) → Option α → ℚ → α ⊕ (Option α × ℚ)
  | [], best, bestF => Sum.inr (best, bestF)
  | (v, f) :: rest, best, bestF =>
    if f ≥ maxF then Sum.inl v
    else if f > bestF then scanScored maxF rest (some v) f
    else scanScored maxF rest best bestF

/-- The terminal states of run_evolution: success with the repaired variant
and its generation, failure with the best-so-far variant after the generation
budget, or an uncaught exception. -/
inductive DriverResult : Type
  | success (v : Program) (gen : ℕ)
  | failed (best : Option Program)
  | crashed
deriving DecidableEq

/-- The generation loop of run_evolution: evaluate every member, return the
first perfect variant, otherwise select survivors and repopulate; an uncaught
exception in selection or repopulation crashes the run.  Generations are
numbered from 1 as in the source. -/
def evolutionLoop {α : Type} [DecidableEq α]
    (validFn : Program → Bool) (loadOf : Program → Option (TestCase α → Outcome α))
    (pk : ℕ → ℕ → ℕ) (rch : ℕ → ℕ → ℕ → Choices) (weighted : List (ℕ × ℚ))
    (b : Battery α) (popSize : ℕ) :
    ℕ → List Program → Option Program → ℚ → ℕ → DriverResult
  | _, _, best, _, 0 => .failed best
  | gen, pop, best, bestF, remaining + 1 =>
    let scored := pop.map (fun v => (v, evaluate_file (loadOf v) b))
    match scanScored b.maxFitness scored best bestF with
    | Sum.inl v => .success v gen
    | Sum.inr (best', bestF') =>
      match select_survivors scored with
      | none => .crashed
      | some (survivors, _) =>
        match repopulate validFn (pk gen) (rch gen) weighted survivors popSize with
        | none => .crashed
        | some pop' =>
          evolutionLoop validFn loadOf pk rch weighted b popSize
            (gen + 1) pop' best' bestF' remaining

/-- evolution.py run_evolution (its pure core): localize faults on the
original patient, seed the population, and run the generation loop.  File and
report side effects are outside the model; cov abstracts coverage tracing and
loadOf abstracts saving a variant and loading it through the harness. -/
def run_evolution {α : Type} [DecidableEq α]
    (validFn : Program → Bool) (cov : TestCase α → Finset ℕ)
    (loadOf : Program → Option (TestCase α → Outcome α))
    (ich : ℕ → ℕ → Choices) (pk : ℕ → ℕ → ℕ) (rch : ℕ → ℕ → ℕ → Choices)
    (b : Battery α) (original : Program) (numGens popSize : ℕ) :
    DriverResult :=
  let weighted := run_fault_localization cov b
  match initialize_population validFn ich original weighted popSize with
  | none => .crashed
  | some pop =>
    evolutionLoop validFn loadOf pk rch weighted b popSize 1 pop none 0 numGens

/-- C8: for in-range target and source indices, DELETE preserves the number of
lines, INSERT increments it by one, and SWAP, EXPRESSION (when it does not
signal failure) and BOOLEAN (when it does not signal failure) preserve it. -/
theorem mutation_operator_lengths (lines : Program) (t s mPick rPick : ℕ)
    (ht : t < lines.length) (_hs : s < lines.length) :
    (mutate_delete lines t).length = lines.length ∧
    (mutate_insert lines t s).length = lines.length + 1 ∧
    (mutate_swap lines t s).length = lines.length ∧
    (∀ out, mutate_expression mPick rPick lines t = some out →
      out.length = lines.length) ∧
    (∀ out, mutate_boolean mPick lines t = some out →
      out.length = lines.length) := by
  refine ⟨?_, ?_, ?_, ?_, ?_⟩
  · simp [mutate_delete]
  · unfold mutate_insert
    rw [List.length_insertIdx _ _ (by omega)]
  · unfold mutate_swap
    dsimp only
    split
    · rfl
    · simp
  · intro out h
    unfold mutate_expression at h
    dsimp only at h
    split at h
    · exact absurd h (by simp)
    · simp only [Option.some.injEq] at h
      subst h
      simp
  · intro out h
    unfold mutate_boolean at h
    dsimp only at h
    split at h
    · exact absurd h (by simp)
    · simp only [Option.some.injEq] at h
      subst h
      simp

/-- C8 witness: concrete in-range instantiation. -/
theorem mutation_operator_lengths_witness :
    (mutate_delete ["x = 1\n".toList, "y = 2\n".toList] 0).length = 2 :=
  (mutation_operator_lengths ["x = 1\n".toList, "y = 2\n".toList] 0 1 0 0
    (by decide) (by decide)).1

/-- A returned mutant passed through the syntax gate. -/
theorem gateMutation_ok (validFn : Program → Bool) (o : Option Program)
    (v : Program) (h : gateMutation validFn o = .ok v) : validFn v = true := by
  cases o with
  | none => exact MutOut.noConfusion h
  | some m =>
    rw [show gateMutation validFn (some m) =
      if validFn m then .ok m else .failed from rfl] at h
    split at h
    · simp only [MutOut.ok.injEq] at h
      subst h
      assumption
    · exact MutOut.noConfusion h

/-- The syntax gate never raises. -/
theorem gateMutation_ne_crash (validFn : Program → Bool) (o : Option Program) :
    gateMutation validFn o ≠ .crash := by
  cases o with
  | none => exact fun h => MutOut.noConfusion h
  | some m =>
    intro h
    rw [show gateMutation validFn (some m) =
      if validFn m then .ok m else .failed from rfl] at h
    split at h
    · exact MutOut.noConfusion h
    · exact MutOut.noConfusion h

/-- C3: whenever apply_random_mutation returns a variant rather than a failure
or a crash, the syntax validator accepts that variant, whatever the operator
drawn. -/
theorem apply_random_mutation_valid (validFn : Program → Bool) (ch : Choices)
    (lines : Program) (weighted : List (ℕ × ℚ)) (v : Program) :
    apply_random_mutation validFn ch lines weighted = .ok v →
    validFn v = true := by
  intro h
  unfold apply_random_mutation at h
  dsimp only at h
  split at h
  · exact absurd h (by simp)
  · exact absurd h (by simp)
  · exact gateMutation_ok validFn _ v h

/-- A concrete accepted mutation used by the C3 witness: DELETE on a
one-line program. -/
theorem apply_random_mutation_concrete :
    apply_random_mutation (fun _ => true) ⟨0, 0, 0, 0, 0, 0⟩
      ["x = 1\n".toList] [(1, 1)] = .ok ["pass\n".toList] := by
  have hf : (([((1 : ℕ), (1 : ℚ))]).filterMap
      (fun lw => if lw.2 > 0 then some (lw.1 - 1, lw.2) else none)) =
      [(0, 1)] := by
    rw [List.filterMap_cons, List.filterMap_nil]
    norm_num
  have hsel : select_line_by_weight 0 0 [((0 : ℕ), (1 : ℚ))] = some 0 := by
    unfold select_line_by_weight
    dsimp only
    rw [if_neg (by norm_num), rouletteScan]
    rw [if_pos (by norm_num)]
  unfold apply_random_mutation
  dsimp only
  rw [hf, if_neg (by simp), hsel]
  decide

/-- C3 witness: the validator accepts the concrete returned variant. -/
theorem apply_random_mutation_valid_witness :
    (fun (_ : Program) => true) ["pass\n".toList] = true :=
  apply_random_mutation_valid (fun _ => true) ⟨0, 0, 0, 0, 0, 0⟩
    ["x = 1\n".toList] [(1, 1)] ["pass\n".toList]
    apply_random_mutation_concrete

/-- Shape of a successful crossover attempt: the offspring come from a pivot
in [1, minLen - 1], with the both-valid pair or the single valid offspring
duplicated. -/
theorem crossoverAttempts_ok_shape (validFn : Program → Bool)
    (pivots : ℕ → ℕ) (a b : Program) (minLen : ℕ) (hmin : 2 ≤ minLen) :
    ∀ fuel k c1 c2,
      crossoverAttempts validFn pivots a b minLen k fuel = some (c1, c2) →
      ∃ p, 1 ≤ p ∧ p ≤ minLen - 1 ∧
        ((validFn (offspring a b p) = true ∧ validFn (offspring b a p) = true ∧
            c1 = offspring a b p ∧ c2 = offspring b a p) ∨
         (validFn (offspring a b p) = true ∧ validFn (offspring b a p) = false ∧
            c1 = offspring a b p ∧ c2 = offspring a b p) ∨
         (validFn (offspring a b p) = false ∧ validFn (offspring b a p) = true ∧
            c1 = offspring b a p ∧ c2 = offspring b a p)) := by
  intro fuel
  induction fuel with
  | zero => intro k c1 c2 h; exact absurd h (by simp [crossoverAttempts])
  | succ n ih =>
    intro k c1 c2 h
    unfold crossoverAttempts at h
    have hp : 1 ≤ 1 + pivots k % (minLen - 1) ∧
        1 + pivots k % (minLen - 1) ≤ minLen - 1 := by
      have := Nat.mod_lt (pivots k) (y := minLen - 1) (by omega)
      omega
    by_cases h1 : validFn (offspring a b (1 + pivots k % (minLen - 1))) = true
    · by_cases h2 : validFn (offspring b a (1 + pivots k % (minLen - 1))) = true
      · rw [if_pos h1, if_pos h2] at h
        simp only [Option.some.injEq, Prod.mk.injEq] at h
        exact ⟨_, hp.1, hp.2, Or.inl ⟨h1, h2, h.1.symm, h.2.symm⟩⟩
      · rw [if_pos h1, if_neg h2] at h
        simp only [Option.some.injEq, Prod.mk.injEq] at h
        exact ⟨_, hp.1, hp.2,
          Or.inr (Or.inl ⟨h1, Bool.not_eq_true _ ▸ h2, h.1.symm, h.2.symm⟩)⟩
    · by_cases h2 : validFn (offspring b a (1 + pivots k % (minLen - 1))) = true
      · rw [if_neg h1, if_pos h2] at h
        simp only [Option.some.injEq, Prod.mk.injEq] at h
        exact ⟨_, hp.1, hp.2,
          Or.inr (Or.inr ⟨Bool.not_eq_true _ ▸ h1, h2, h.1.symm, h.2.symm⟩)⟩
      · rw [if_neg h1, if_neg h2] at h
        exact ih (k + 1) c1 c2 h

/-- When every pivot in range yields two invalid offspring, the attempt loop
fails for any fuel. -/
theorem crossoverAttempts_all_invalid (validFn : Program → Bool)
    (pivots : ℕ → ℕ) (a b : Program) (minLen : ℕ) (hmin : 2 ≤ minLen)
    (hall : ∀ p, 1 ≤ p → p ≤ minLen - 1 →
      validFn (offspring a b p) = false ∧ validFn (offspring b a p) = false) :
    ∀ fuel k, crossoverAttempts validFn pivots a b minLen k fuel = none := by
  intro fuel
  induction fuel with
  | zero => intro k; simp [crossoverAttempts]
  | succ n ih =>
    intro k
    unfold crossoverAttempts
    have hp : 1 ≤ 1 + pivots k % (minLen - 1) ∧
        1 + pivots k % (minLen - 1) ≤ minLen - 1 := by
      have := Nat.mod_lt (pivots k) (y := minLen - 1) (by omega)
      omega
    have := hall _ hp.1 hp.2
    rw [if_neg (by simp [this.1]), if_neg (by simp [this.2])]
    exact ih (k + 1)

/-- C5: crossover fails when the shorter parent has at most one line;
otherwise any returned pair comes from a pivot p in [1, L-1] as the offspring
A[:p]+B[p:] and B[:p]+A[p:] (the pair when both are valid, the single valid
offspring duplicated otherwise); and when every pivot in range yields two
invalid offspring, crossover fails. -/
theorem crossover_spec (validFn : Program → Bool) (pivots : ℕ → ℕ)
    (a b : Program) :
    (min a.length b.length ≤ 1 → crossover validFn pivots a b = none) ∧
    (∀ c1 c2, crossover validFn pivots a b = some (c1, c2) →
      ∃ p, 1 ≤ p ∧ p ≤ min a.length b.length - 1 ∧
        ((validFn (offspring a b p) = true ∧ validFn (offspring b a p) = true ∧
            c1 = offspring a b p ∧ c2 = offspring b a p) ∨
         (validFn (offspring a b p) = true ∧ validFn (offspring b a p) = false ∧
            c1 = offspring a b p ∧ c2 = offspring a b p) ∨
         (validFn (offspring a b p) = false ∧ validFn (offspring b a p) = true ∧
            c1 = offspring b a p ∧ c2 = offspring b a p))) ∧
    ((∀ p, 1 ≤ p → p ≤ min a.length b.length - 1 →
        validFn (offspring a b p) = false ∧ validFn (offspring b a p) = false) →
      crossover validFn pivots a b = none) := by
  refine ⟨?_, ?_, ?_⟩
  · intro hL
    unfold crossover
    by_cases he : a = [] ∨ b = []
    · rw [if_pos he]
    · rw [if_neg he, if_pos hL]
  · intro c1 c2 h
    unfold crossover at h
    by_cases he : a = [] ∨ b = []
    · rw [if_pos he] at h
      exact absurd h (by simp)
    · rw [if_neg he] at h
      by_cases hL : min a.length b.length ≤ 1
      · rw [if_pos hL] at h
        exact absurd h (by simp)
      · rw [if_neg hL] at h
        exact crossoverAttempts_ok_shape validFn pivots a b _ (by omega) 5 0
          c1 c2 h
  · intro hall
    unfold crossover
    by_cases he : a = [] ∨ b = []
    · rw [if_pos he]
    · by_cases hL : min a.length b.length ≤ 1
      · rw [if_neg he, if_pos hL]
      · rw [if_neg he, if_neg hL]
        exact crossoverAttempts_all_invalid validFn pivots a b _ (by omega)
          hall 5 0

/-- C5 witness: crossover of two empty parents fails. -/
theorem crossover_spec_witness :
    crossover (fun _ => true) (fun _ => 0) [] [] = none :=
  (crossover_spec (fun _ => true) (fun _ => 0) [] []).1 (by decide)

/-- C10: one-point crossover of a syntactically valid parent of at least two
lines with itself never fails and returns the parent twice. -/
theorem crossover_self (validFn : Program → Bool) (pivots : ℕ → ℕ)
    (a : Program) (h2 : 2 ≤ a.length) (hv : validFn a = true) :
    crossover validFn pivots a a = some (a, a) := by
  unfold crossover
  rw [if_neg (by rintro (rfl | rfl) <;> simp at h2)]
  rw [if_neg (by omega)]
  unfold crossoverAttempts
  simp only [offspring, List.take_append_drop, hv, if_true]

/-- C10 witness: crossover of a concrete two-line program with itself. -/
theorem crossover_self_witness :
    crossover (fun _ => true) (fun _ => 0)
      ["a = 1\n".toList, "b = 2\n".toList]
      ["a = 1\n".toList, "b = 2\n".toList] =
    some (["a = 1\n".toList, "b = 2\n".toList],
      ["a = 1\n".toList, "b = 2\n".toList]) :=
  crossover_self (fun _ => true) (fun _ => 0) _ (by decide) rfl

/-- Every reported connective match is a genuine occurrence: the line splits
as prefix, matched text, suffix, with the prefix length giving the match
position. -/
theorem boolMatchesFuel_mem (fuel : ℕ) : ∀ (i j : ℕ) (c : BConn) (l : Line),
    l.length ≤ fuel → (j, c) ∈ boolMatchesFuel fuel i l →
    ∃ pre suf, l = pre ++ bconnStr c ++ suf ∧ pre.length = j - i ∧ i ≤ j := by
  induction fuel with
  | zero =>
    intro i j c l hf h
    exact absurd h (by simp [boolMatchesFuel])
  | succ n ih =>
    intro i j c l hf h
    unfold boolMatchesFuel at h
    by_cases hand : l.take 5 = " and ".toList
    · rw [if_pos hand] at h
      have hlen5 : 5 ≤ l.length := by
        have := congrArg List.length hand
        simp at this
        omega
      rcases List.mem_cons.1 h with heq | hmem
      · obtain ⟨rfl, rfl⟩ := Prod.mk.injEq .. ▸ heq
        refine ⟨[], l.drop 5, ?_, by simp, le_refl _⟩
        show l = [] ++ " and ".toList ++ l.drop 5
        rw [List.nil_append, ← hand, List.take_append_drop]
      · obtain ⟨pre', suf', hdec, hplen, hij⟩ :=
          ih (i + 5) j c (l.drop 5) (by simp; omega) hmem
        refine ⟨" and ".toList ++ pre', suf', ?_, ?_, by omega⟩
        · conv_lhs => rw [← List.take_append_drop 5 l, hand, hdec]
          simp
        · simp
          omega
    · rw [if_neg hand] at h
      by_cases hor : l.take 4 = " or ".toList
      · rw [if_pos hor] at h
        have hlen4 : 4 ≤ l.length := by
          have := congrArg List.length hor
          simp at this
          omega
        rcases List.mem_cons.1 h with heq | hmem
        · obtain ⟨rfl, rfl⟩ := Prod.mk.injEq .. ▸ heq
          refine ⟨[], l.drop 4, ?_, by simp, le_refl _⟩
          show l = [] ++ " or ".toList ++ l.drop 4
          rw [List.nil_append, ← hor, List.take_append_drop]
        · obtain ⟨pre', suf', hdec, hplen, hij⟩ :=
            ih (i + 4) j c (l.drop 4) (by simp; omega) hmem
          refine ⟨" or ".toList ++ pre', suf', ?_, ?_, by omega⟩
          · conv_lhs => rw [← List.take_append_drop 4 l, hor, hdec]
            simp
          · simp
            omega
      · rw [if_neg hor] at h
        match l, hf, h with
        | [], _, h => exact absurd h (by simp)
        | c0 :: rest, hf, h =>
          obtain ⟨pre', suf', hdec, hplen, hij⟩ :=
            ih (i + 1) j c rest (by simp at hf; omega) h
          refine ⟨c0 :: pre', suf', by simp [hdec], ?_, by omega⟩
          simp
          omega

/-- When the scanner reports no match, the line has no space-delimited
connective occurrence at all. -/
theorem boolMatchesFuel_nil (fuel : ℕ) : ∀ (i : ℕ) (l : Line),
    l.length ≤ fuel → boolMatchesFuel fuel i l = [] →
    ¬ ∃ pre suf, l = pre ++ " and ".toList ++ suf ∨
      l = pre ++ " or ".toList ++ suf := by
  induction fuel with
  | zero =>
    intro i l hf _
    rintro ⟨pre, suf, hor | hor⟩ <;>
      · have := congrArg List.length hor
        simp at this
        omega
  | succ n ih =>
    intro i l hf hnil
    unfold boolMatchesFuel at hnil
    by_cases hand : l.take 5 = " and ".toList
    · rw [if_pos hand] at hnil
      exact absurd hnil (by simp)
    · rw [if_neg hand] at hnil
      by_cases hor : l.take 4 = " or ".toList
      · rw [if_pos hor] at hnil
        exact absurd hnil (by simp)
      · rw [if_neg hor] at hnil
        match l, hf, hnil with
        | [], _, _ =>
          rintro ⟨pre, suf, h | h⟩ <;> simp at h
        | c0 :: rest, hf, hnil =>
          rintro ⟨pre, suf, h | h⟩
          · match pre, h with
            | [], h =>
              apply hand
              rw [h]
              have : (" and ".toList).length = 5 := by decide
              rw [show (5 : ℕ) = (" and ".toList).length from rfl, List.nil_append,
                List.take_left]
            | p0 :: pre', h =>
              exact ih (i + 1) rest (by simp at hf; omega) hnil
                ⟨pre', suf, Or.inl (by injection h)⟩
          · match pre, h with
            | [], h =>
              apply hor
              rw [h]
              rw [show (4 : ℕ) = (" or ".toList).length from rfl, List.nil_append,
                List.take_left]
            | p0 :: pre', h =>
              exact ih (i + 1) rest (by simp at hf; omega) hnil
                ⟨pre', suf, Or.inr (by injection h)⟩

/-- C9 (amended): a successful BOOLEAN mutation rewrites exactly one
space-surrounded occurrence of the connective, spaces preserved, into the
swapped connective; it fails exactly when the target line contains no
space-surrounded " and " or " or ". -/
theorem mutate_boolean_spec (mPick : ℕ) (lines : Program) (t : ℕ) :
    (∀ out, mutate_boolean mPick lines t = some out →
      ∃ pre c suf, lines.getD t [] = pre ++ bconnStr c ++ suf ∧
        out = lines.set t (pre ++ bconnStr (bconnSwap c) ++ suf)) ∧
    (mutate_boolean mPick lines t = none ↔
      ¬ ∃ pre suf, lines.getD t [] = pre ++ " and ".toList ++ suf ∨
        lines.getD t [] = pre ++ " or ".toList ++ suf) := by
  have key : ∀ j c, (j, c) ∈ boolMatches (lines.getD t []) →
      ∃ pre suf, lines.getD t [] = pre ++ bconnStr c ++ suf ∧
        pre.length = j := by
    intro j c hmem
    obtain ⟨pre, suf, hdec, hplen, _⟩ :=
      boolMatchesFuel_mem (lines.getD t []).length 0 j c (lines.getD t [])
        (le_refl _) hmem
    exact ⟨pre, suf, hdec, by omega⟩
  constructor
  · intro out h
    unfold mutate_boolean at h
    dsimp only at h
    split at h
    · exact absurd h (by simp)
    · rename_i m0 ms hms
      simp only [Option.some.injEq] at h
      set line := lines.getD t [] with hline
      set m := (m0 :: ms).getD (mPick % (m0 :: ms).length) m0 with hm
      have hmem : m ∈ boolMatches line := by
        rw [hms]
        rw [hm, List.getD_eq_getElem _ _ (Nat.mod_lt _ (by simp))]
        exact List.getElem_mem _
      obtain ⟨pre, suf, hdec, hplen⟩ := key m.1 m.2 hmem
      refine ⟨pre, m.2, suf, hdec, ?_⟩
      rw [← h]
      congr 1
      have htake : line.take m.1 = pre := by
        rw [hdec, ← hplen, List.append_assoc, List.take_left]
      have hdrop : line.drop (m.1 + (bconnStr m.2).length) = suf := by
        rw [hdec, ← hplen, ← List.length_append, List.drop_left]
      rw [htake, hdrop]
  · constructor
    · intro h
      unfold mutate_boolean at h
      dsimp only at h
      split at h
      · rename_i hms
        exact boolMatchesFuel_nil (lines.getD t []).length 0 (lines.getD t [])
          (le_refl _) hms
      · exact absurd h (by simp)
    · intro hno
      unfold mutate_boolean
      dsimp only
      split
      · rfl
      · rename_i m0 ms hms
        exfalso
        have hmem : m0 ∈ boolMatches (lines.getD t []) := by
          rw [hms]
          exact List.mem_cons_self _ _
        obtain ⟨pre, suf, hdec, _⟩ := key m0.1 m0.2 hmem
        apply hno
        cases hc : m0.2 with
        | bAnd => exact ⟨pre, suf, Or.inl (by rw [hdec, hc]; rfl)⟩
        | bOr => exact ⟨pre, suf, Or.inr (by rw [hdec, hc]; rfl)⟩

/-- C9 witness: the BOOLEAN operator on a concrete line with one
space-surrounded and, applied through the amended theorem. -/
theorem mutate_boolean_spec_witness :
    ∃ pre c suf,
      (["if a and b:\n".toList] : Program).getD 0 [] =
        pre ++ bconnStr c ++ suf ∧
      ["if a or b:\n".toList] =
        (["if a and b:\n".toList] : Program).set 0
          (pre ++ bconnStr (bconnSwap c) ++ suf) :=
  (mutate_boolean_spec 0 ["if a and b:\n".toList] 0).1
    ["if a or b:\n".toList] (by decide)

/-- A word character for the spec's word-boundary semantics: letters, digits
and underscore. -/
def isWordChar (c : Char) : Bool := c.isAlphanum || c = '_'

/-- Modelled from the spec: a word-bounded occurrence of pat at position i of
the line, as the claim's word-boundary semantics requires — the neighbouring
characters (when they exist) are not word characters, so occurrences adjacent
to punctuation or at the end of the line count.  This definition follows the
spec's words, for comparison with the source's space-delimited matcher. -/
def wordBoundedAt (l : Line) (i : ℕ) (pat : Line) : Bool :=
  decide ((l.drop i).take pat.length = pat) &&
  (decide (i = 0) || !isWordChar (l.getD (i - 1) ' ')) &&
  !isWordChar (l.getD (i + pat.length) ' ')

/-- Modelled from the spec: the line contains a word-bounded and or or. -/
def hasWordBoundedConnective (l : Line) : Bool :=
  (List.range l.length).any (fun i =>
    wordBoundedAt l i "and".toList || wordBoundedAt l i "or".toList)

/-- C9 counterexample: the line "if x and(y):" contains a word-bounded and
(adjacent to punctuation), yet the source's BOOLEAN operator, which requires
a space on both sides of the connective, signals failure on it. -/
theorem mutate_boolean_word_boundary_counterexample :
    hasWordBoundedConnective "if x and(y):\n".toList = true ∧
    mutate_boolean 0 ["if x and(y):\n".toList] 0 = none := by
  constructor
  · decide
  · decide

/-- Membership in the folded coverage union is membership in some test's
trace. -/
theorem coveredUnion_mem {α : Type} (cov : TestCase α → Finset ℕ)
    (tests : List (TestCase α)) (l : ℕ) :
    l ∈ coveredUnion cov tests ↔ ∃ t ∈ tests, l ∈ cov t := by
  have key : ∀ (ts : List (TestCase α)) (s : Finset ℕ),
      (l ∈ ts.foldl (fun s t => s ∪ cov t) s ↔ l ∈ s ∨ ∃ t ∈ ts, l ∈ cov t) := by
    intro ts
    induction ts with
    | nil => intro s; simp
    | cons t rest ih =>
      intro s
      rw [List.foldl_cons, ih]
      simp [Finset.mem_union, or_assoc]
  rw [coveredUnion, key]
  simp

/-- C1: fault localization returns pairs for exactly the lines in P union F,
in strictly increasing line order, with weight 1 for a line only in F, 1/10
for a line in both, 0 for a line only in P; determinism is immediate since
the localizer is a function of the patient's coverage and the battery. -/
theorem fault_localization_spec {α : Type} (cov : TestCase α → Finset ℕ)
    (b : Battery α) :
    (∀ l, (∃ w, (l, w) ∈ run_fault_localization cov b) ↔
      ((∃ t ∈ b.pos, l ∈ cov t) ∨ (∃ t ∈ b.neg, l ∈ cov t))) ∧
    (run_fault_localization cov b).Pairwise (fun x y => x.1 < y.1) ∧
    (∀ l w, (l, w) ∈ run_fault_localization cov b →
      w = if l ∈ coveredUnion cov b.neg then
            (if l ∈ coveredUnion cov b.pos then 1 / 10 else 1) else 0) := by
  refine ⟨?_, ?_, ?_⟩
  · intro l
    unfold run_fault_localization
    dsimp only
    constructor
    · rintro ⟨w, hw⟩
      obtain ⟨x, hx, hxl⟩ := List.mem_map.1 hw
      have hx1 : x = l := by
        have := congrArg Prod.fst hxl
        simpa using this
      subst hx1
      have hmem := Finset.mem_sort (α := ℕ) (· ≤ ·) |>.1 hx
      rcases Finset.mem_union.1 hmem with h | h
      · exact Or.inl ((coveredUnion_mem cov b.pos x).1 h)
      · exact Or.inr ((coveredUnion_mem cov b.neg x).1 h)
    · intro h
      have hmem : l ∈ coveredUnion cov b.pos ∪ coveredUnion cov b.neg := by
        rcases h with h | h
        · exact Finset.mem_union_left _ ((coveredUnion_mem cov b.pos l).2 h)
        · exact Finset.mem_union_right _ ((coveredUnion_mem cov b.neg l).2 h)
      exact ⟨_, List.mem_map_of_mem _ ((Finset.mem_sort (α := ℕ) (· ≤ ·)).2 hmem)⟩
  · unfold run_fault_localization
    dsimp only
    rw [List.pairwise_map]
    exact (Finset.sort_sorted_lt _).imp (fun h => h)
  · intro l w hw
    unfold run_fault_localization at hw
    dsimp only at hw
    obtain ⟨x, hx, hxl⟩ := List.mem_map.1 hw
    obtain ⟨rfl, hw2⟩ := Prod.mk.injEq .. ▸ hxl
    exact hw2.symm

/-- The coverage oracle of the C1 witness. -/
def covC : TestCase ℕ → Finset ℕ :=
  fun t => if t.input = [1] then {1, 2} else {2, 3}

/-- The battery of the C1 witness: one positive and one negative test. -/
def batteryC : Battery ℕ :=
  ⟨1, 10, [⟨[1], 0⟩], [⟨[2], 0⟩], 11⟩

/-- C1 witness: line 1 is covered by the positive test, hence appears in the
localization output. -/
theorem fault_localization_spec_witness :
    ∃ w, ((1 : ℕ), w) ∈ run_fault_localization covC batteryC :=
  ((fault_localization_spec covC batteryC).1 1).2 (Or.inl (by decide))

/-- The per-case loop equals the sum of the per-case scores. -/
theorem caseFold_eq {α : Type} [DecidableEq α] (run : TestCase α → Outcome α)
    (w : ℚ) (tests : List (TestCase α)) :
    ∀ acc, caseFold run w tests acc =
      acc + (tests.map (fun t => caseScore w t (run t))).sum := by
  induction tests with
  | nil => intro acc; simp [caseFold]
  | cons t rest ih =>
    intro acc
    simp only [caseFold]
    rw [ih, List.map_cons, List.sum_cons]
    cases hrun : run t with
    | ok v =>
      show (if v = t.expected then acc + w else acc) + _ =
        acc + ((if v = t.expected then w else 0) + _)
      by_cases hv : v = t.expected
      · rw [if_pos hv, if_pos hv]
        ring
      · rw [if_neg hv, if_neg hv]
        ring
    | fail =>
      show acc + _ = acc + (0 + _)
      ring

/-- Each case score is nonnegative when the weight is. -/
theorem caseScore_nonneg {α : Type} [DecidableEq α] (w : ℚ) (t : TestCase α)
    (o : Outcome α) (hw : 0 ≤ w) : 0 ≤ caseScore w t o := by
  cases o with
  | ok v =>
    show 0 ≤ if v = t.expected then w else 0
    split
    · exact hw
    · exact le_refl 0
  | fail => exact le_refl 0

/-- Each case score is at most the weight when the weight is nonnegative. -/
theorem caseScore_le {α : Type} [DecidableEq α] (w : ℚ) (t : TestCase α)
    (o : Outcome α) (hw : 0 ≤ w) : caseScore w t o ≤ w := by
  cases o with
  | ok v =>
    show (if v = t.expected then w else 0) ≤ w
    split
    · exact le_refl w
    · exact hw
  | fail => exact hw

/-- C2 (amended): the fitness is the sum over all test cases of the case's
weight when the invocation is ok with a structurally equal value and zero
otherwise (no short-circuit: every case contributes a summand), and, provided
the battery's two weights are nonnegative, the fitness lies between 0 and
F_max = |positive| * w_pos + |negative| * w_neg. -/
theorem evaluate_file_spec {α : Type} [DecidableEq α]
    (loadRes : Option (TestCase α → Outcome α)) (b : Battery α) :
    evaluate_file loadRes b =
      (b.pos.map (fun t => caseScore b.posW t (effRun loadRes t))).sum +
      (b.neg.map (fun t => caseScore b.negW t (effRun loadRes t))).sum ∧
    (0 ≤ b.posW → 0 ≤ b.negW →
      0 ≤ evaluate_file loadRes b ∧ evaluate_file loadRes b ≤ fMax b) := by
  have hsum : evaluate_file loadRes b =
      (b.pos.map (fun t => caseScore b.posW t (effRun loadRes t))).sum +
      (b.neg.map (fun t => caseScore b.negW t (effRun loadRes t))).sum := by
    cases loadRes with
    | none =>
      show (0 : ℚ) = _
      simp [effRun, caseScore]
    | some run =>
      show caseFold run b.negW b.neg (caseFold run b.posW b.pos 0) = _
      rw [caseFold_eq, caseFold_eq]
      show 0 + _ + _ = _
      rw [zero_add]
      rfl
  refine ⟨hsum, fun hp hn => ⟨?_, ?_⟩⟩
  · rw [hsum]
    have h1 : (0 : ℚ) ≤ (b.pos.map (fun t => caseScore b.posW t (effRun loadRes t))).sum := by
      apply List.sum_nonneg
      intro x hx
      obtain ⟨t, -, rfl⟩ := List.mem_map.1 hx
      exact caseScore_nonneg _ _ _ hp
    have h2 : (0 : ℚ) ≤ (b.neg.map (fun t => caseScore b.negW t (effRun loadRes t))).sum := by
      apply List.sum_nonneg
      intro x hx
      obtain ⟨t, -, rfl⟩ := List.mem_map.1 hx
      exact caseScore_nonneg _ _ _ hn
    linarith
  · rw [hsum]
    have h1 : (b.pos.map (fun t => caseScore b.posW t (effRun loadRes t))).sum ≤
        (b.pos.length : ℚ) * b.posW := by
      have := List.sum_le_card_nsmul
        (b.pos.map (fun t => caseScore b.posW t (effRun loadRes t))) b.posW ?_
      · rwa [List.length_map, nsmul_eq_mul] at this
      · intro x hx
        obtain ⟨t, -, rfl⟩ := List.mem_map.1 hx
        exact caseScore_le _ _ _ hp
    have h2 : (b.neg.map (fun t => caseScore b.negW t (effRun loadRes t))).sum ≤
        (b.neg.length : ℚ) * b.negW := by
      have := List.sum_le_card_nsmul
        (b.neg.map (fun t => caseScore b.negW t (effRun loadRes t))) b.negW ?_
      · rwa [List.length_map, nsmul_eq_mul] at this
      · intro x hx
        obtain ⟨t, -, rfl⟩ := List.mem_map.1 hx
        exact caseScore_le _ _ _ hn
    unfold fMax
    linarith

/-- C2 counterexample: with a negative positive-test weight (a battery the
claim's universal quantifier admits), a passing positive test drives the
fitness below zero, refuting 0 <= evaluate(variant). -/
theorem evaluate_file_negative_weight_counterexample :
    evaluate_file (α := ℕ) (some (fun _ => .ok 0))
      ⟨-1, 1, [⟨[], 0⟩], [], 0⟩ < 0 := by
  show caseFold _ _ _ _ < 0
  rw [caseFold, caseFold]
  norm_num [caseFold]

/-- C2 witness: the bounds at a concrete battery with nonnegative weights. -/
theorem evaluate_file_spec_witness :
    0 ≤ evaluate_file (α := ℕ) (some (fun _ => .ok 0))
      ⟨1, 10, [⟨[], 0⟩], [⟨[], 1⟩], 11⟩ ∧
    evaluate_file (α := ℕ) (some (fun _ => .ok 0))
      ⟨1, 10, [⟨[], 0⟩], [⟨[], 1⟩], 11⟩ ≤
      fMax (α := ℕ) ⟨1, 10, [⟨[], 0⟩], [⟨[], 1⟩], 11⟩ :=
  (evaluate_file_spec _ _).2 (by norm_num) (by norm_num)

/-- Roulette selection returns an index on every nonempty candidate list. -/
theorem select_line_by_weight_isSome (cPick : ℕ) (r : ℚ) (w0 : ℕ × ℚ)
    (ws : List (ℕ × ℚ)) :
    ∃ x, select_line_by_weight cPick r (w0 :: ws) = some x := by
  unfold select_line_by_weight
  dsimp only
  split
  · exact ⟨_, rfl⟩
  · exact ⟨_, rfl⟩

/-- With a nonempty weighted-line list the candidate list is nonempty, so
apply_random_mutation never raises: it returns a variant or a retriable
failure. -/
theorem apply_random_mutation_ne_crash (validFn : Program → Bool)
    (ch : Choices) (lines : Program) (weighted : List (ℕ × ℚ))
    (hw : weighted ≠ []) :
    apply_random_mutation validFn ch lines weighted ≠ .crash := by
  unfold apply_random_mutation
  dsimp only
  by_cases hf : weighted.filterMap
      (fun lw => if lw.2 > 0 then some (lw.1 - 1, lw.2) else none) = []
  · rw [if_pos hf]
    obtain ⟨w0, ws, rfl⟩ := List.exists_cons_of_ne_nil hw
    rw [List.map_cons]
    obtain ⟨x, hx⟩ := select_line_by_weight_isSome ch.cPick ch.rT _ _
    rw [hx]
    exact gateMutation_ne_crash validFn _
  · rw [if_neg hf]
    obtain ⟨c0, cs, hc⟩ := List.exists_cons_of_ne_nil hf
    rw [hc]
    obtain ⟨x, hx⟩ := select_line_by_weight_isSome ch.cPick ch.rT _ _
    rw [hx]
    exact gateMutation_ne_crash validFn _

/-- With a nonempty weighted-line list the 10-attempt retry loop never
raises. -/
theorem attemptMutation_isSome (validFn : Program → Bool) (ch : ℕ → Choices)
    (lines : Program) (weighted : List (ℕ × ℚ)) (hw : weighted ≠ []) :
    ∀ fuel a, ∃ mres, attemptMutation validFn ch lines weighted a fuel =
      some mres := by
  intro fuel
  induction fuel with
  | zero => intro a; exact ⟨none, rfl⟩
  | succ n ih =>
    intro a
    unfold attemptMutation
    cases hm : apply_random_mutation validFn (ch a) lines weighted with
    | crash => exact absurd hm (apply_random_mutation_ne_crash _ _ _ _ hw)
    | failed => exact ih (a + 1)
    | ok m => exact ⟨some m, rfl⟩

/-- The repopulation while loop appends exactly one member per iteration, so
with a nonempty survivor list and nonempty weighted lines it terminates with
fuel new members. -/
theorem repopLoop_length (validFn : Program → Bool) (pk : ℕ → ℕ)
    (rch : ℕ → ℕ → Choices) (weighted : List (ℕ × ℚ))
    (s0 : Program) (ss : List Program) (hw : weighted ≠ []) :
    ∀ fuel cur k, ∃ pop,
      repopLoop validFn pk rch weighted (s0 :: ss) cur k fuel = some pop ∧
      pop.length = cur.length + fuel := by
  intro fuel
  induction fuel with
  | zero => intro cur k; exact ⟨cur, rfl, by omega⟩
  | succ n ih =>
    intro cur k
    unfold repopLoop
    dsimp only
    obtain ⟨mres, hm⟩ := attemptMutation_isSome validFn (rch k)
      ((s0 :: ss).getD (pk k % (s0 :: ss).length) s0) weighted hw 10 0
    rw [hm]
    obtain ⟨pop, hpop, hlen⟩ :=
      ih (cur ++ [mres.getD ((s0 :: ss).getD (pk k % (s0 :: ss).length) s0)])
        (k + 1)
    refine ⟨pop, hpop, ?_⟩
    rw [hlen]
    simp
    omega

/-- The stable descending sort modelling Python sorted: it permutes the
index-decorated population and is strictly ordered by fitness descending with
ties ordered by original position. -/
theorem pySortScored_spec {α : Type} (scored : List (α × ℚ)) :
    ∃ sp : List (ℕ × (α × ℚ)),
      sp.Perm scored.enum ∧
      sp.Pairwise (fun x y => y.2.2 < x.2.2 ∨ (x.2.2 = y.2.2 ∧ x.1 < y.1)) ∧
      pySortScored scored = sp.map Prod.snd := by
  refine ⟨List.insertionSort selSortRel scored.enum,
    List.perm_insertionSort _ _, ?_, rfl⟩
  have hsorted : (List.insertionSort selSortRel scored.enum).Pairwise selSortRel :=
    List.sorted_insertionSort _ _
  have hnodup : ((List.insertionSort selSortRel scored.enum).map Prod.fst).Nodup := by
    have hp : ((List.insertionSort selSortRel scored.enum).map Prod.fst).Perm
        (scored.enum.map Prod.fst) := (List.perm_insertionSort _ _).map _
    rw [List.enum_map_fst] at hp
    exact hp.nodup_iff.2 (List.nodup_range _)
  have hne : (List.insertionSort selSortRel scored.enum).Pairwise
      (fun x y => x.1 ≠ y.1) := (List.pairwise_map).1 hnodup
  refine List.Pairwise.imp ?_ (hsorted.and hne)
  rintro a b ⟨hr, hne'⟩
  rcases hr with h | ⟨he, hle⟩
  · exact Or.inl h
  · exact Or.inr ⟨he, lt_of_le_of_ne hle hne'⟩

/-- On a nonempty scored population, selection succeeds and returns the first
half of the stable descending order. -/
theorem select_survivors_eq {α : Type} (scored : List (α × ℚ))
    (h : scored ≠ []) :
    ∃ (sp : List (ℕ × (α × ℚ))) (e : ℕ × (α × ℚ)) (sp' : List (ℕ × (α × ℚ))),
      sp.Perm scored.enum ∧
      sp.Pairwise (fun x y => y.2.2 < x.2.2 ∨ (x.2.2 = y.2.2 ∧ x.1 < y.1)) ∧
      sp = e :: sp' ∧
      select_survivors scored =
        some ((sp.take (scored.length / 2)).map (fun x => x.2.1), e.2.2) := by
  obtain ⟨sp, hperm, hpair, hsort⟩ := pySortScored_spec scored
  have hlen : sp.length = scored.length := by
    rw [hperm.length_eq, List.enum_length]
  have hne : sp ≠ [] := by
    intro h0
    apply h
    rw [h0] at hlen
    exact List.length_eq_zero.1 hlen.symm
  obtain ⟨e, sp', rfl⟩ := List.exists_cons_of_ne_nil hne
  refine ⟨e :: sp', e, sp', hperm, hpair, rfl, ?_⟩
  unfold select_survivors
  rw [hsort, List.map_cons]
  dsimp only
  congr 2
  rw [← List.map_cons Prod.snd e sp', ← List.map_take, List.map_map]
  rfl

/-- C6 (amended): on a nonempty scored population of size N, selection keeps
exactly the top N / 2 variants in the stable fitness-descending order (ties by
original position); and for N at least 2 and a nonempty weighted-line list,
selection followed by repopulation yields a population of exactly N members
again. -/
theorem selection_repopulation_spec (scored : List (Program × ℚ))
    (validFn : Program → Bool) (pk : ℕ → ℕ) (rch : ℕ → ℕ → Choices)
    (weighted : List (ℕ × ℚ)) :
    (scored ≠ [] →
      ∃ (sp : List (ℕ × (Program × ℚ))) (best : ℚ),
        sp.Perm scored.enum ∧
        sp.Pairwise (fun x y => y.2.2 < x.2.2 ∨ (x.2.2 = y.2.2 ∧ x.1 < y.1)) ∧
        select_survivors scored =
          some ((sp.take (scored.length / 2)).map (fun x => x.2.1), best)) ∧
    (2 ≤ scored.length → weighted ≠ [] →
      ∃ survivors best pop,
        select_survivors scored = some (survivors, best) ∧
        repopulate validFn pk rch weighted survivors scored.length = some pop ∧
        pop.length = scored.length) := by
  constructor
  · intro h
    obtain ⟨sp, e, sp', hperm, hpair, hcons, hsel⟩ := select_survivors_eq scored h
    exact ⟨sp, e.2.2, hperm, hpair, hsel⟩
  · intro h2 hw
    have hne : scored ≠ [] := by
      intro h0
      rw [h0] at h2
      simp at h2
    obtain ⟨sp, e, sp', hperm, hpair, hcons, hsel⟩ := select_survivors_eq scored hne
    set survivors := (sp.take (scored.length / 2)).map (fun x => x.2.1) with hsurv
    have hslen : survivors.length = scored.length / 2 := by
      rw [hsurv, List.length_map, List.length_take]
      have : sp.length = scored.length := by
        rw [hperm.length_eq, List.enum_length]
      omega
    have hsne : survivors ≠ [] := by
      intro h0
      have := congrArg List.length h0
      rw [hslen] at this
      simp at this
      omega
    obtain ⟨t0, ts, hts⟩ := List.exists_cons_of_ne_nil hsne
    obtain ⟨pop, hpop, hplen⟩ :=
      repopLoop_length validFn pk rch weighted t0 ts hw
        (scored.length - survivors.length) survivors 0
    refine ⟨survivors, e.2.2, pop, hsel, ?_, ?_⟩
    · unfold repopulate
      rw [hts] at hpop ⊢
      exact hpop
    · rw [hplen, hslen]
      omega

/-- C6 witness: selection and repopulation at a concrete two-member
population. -/
theorem selection_repopulation_spec_witness :
    ∃ survivors best pop,
      select_survivors [(["a\n".toList], (1 : ℚ)), (["b\n".toList], 0)] =
        some (survivors, best) ∧
      repopulate (fun _ => true) (fun _ => 0) (fun _ _ => ⟨0, 0, 0, 0, 0, 0⟩)
        [(1, 1)] survivors 2 = some pop ∧
      pop.length = 2 :=
  (selection_repopulation_spec
    [(["a\n".toList], (1 : ℚ)), (["b\n".toList], 0)]
    (fun _ => true) (fun _ => 0) (fun _ _ => ⟨0, 0, 0, 0, 0, 0⟩)
    [(1, 1)]).2 (by norm_num) (by simp)

/-- C6 counterexample: on the empty scored population the indexing
sorted_pop[0][1] raises instead of returning the top zero variants, and on a
one-member population selection succeeds but repopulation from the resulting
empty survivor list raises in random.choice, so the composition does not
restore the population size. -/
theorem selection_repopulation_counterexample :
    select_survivors ([] : List (Program × ℚ)) = none ∧
    ∃ survivors best,
      select_survivors [(["x\n".toList], (0 : ℚ))] = some (survivors, best) ∧
      repopulate (fun _ => true) (fun _ => 0) (fun _ _ => ⟨0, 0, 0, 0, 0, 0⟩)
        [(1, 1)] survivors 1 = none :=
  ⟨rfl, [], 0, rfl, rfl⟩

/-- With no tests, fault localization traces nothing and returns the empty
weighted-line list. -/
theorem run_fault_localization_empty {α : Type} (cov : TestCase α → Finset ℕ)
    (pw nw mf : ℚ) :
    run_fault_localization cov (⟨pw, nw, [], [], mf⟩ : Battery α) = [] := by
  unfold run_fault_localization coveredUnion
  simp

/-- On an empty weighted-line list both candidate lists are empty and
select_line_by_weight raises (zip of an empty sequence), so
apply_random_mutation raises. -/
theorem apply_random_mutation_nil (validFn : Program → Bool) (ch : Choices)
    (lines : Program) :
    apply_random_mutation validFn ch lines [] = .crash := rfl

/-- The 10-attempt retry loop propagates the exception of the empty
weighted-line list. -/
theorem attemptMutation_nil (validFn : Program → Bool) (ch : ℕ → Choices)
    (lines : Program) (a : ℕ) :
    attemptMutation validFn ch lines [] a 10 = none := rfl

/-- Every mutant slot propagates the exception of the empty weighted-line
list. -/
theorem initSlots_nil (validFn : Program → Bool) (ich : ℕ → ℕ → Choices)
    (original : Program) (i n : ℕ) :
    initSlots validFn ich original [] i (n + 1) = none := by
  unfold initSlots
  rw [attemptMutation_nil]

/-- Population initialization raises whenever at least one mutant slot is to
be filled and the weighted-line list is empty. -/
theorem initialize_population_nil (validFn : Program → Bool)
    (ich : ℕ → ℕ → Choices) (original : Program) (popSize : ℕ)
    (h : 2 ≤ popSize) :
    initialize_population validFn ich original [] popSize = none := by
  obtain ⟨m, rfl⟩ : ∃ m, popSize = m + 2 := ⟨popSize - 2, by omega⟩
  unfold initialize_population
  have hm : m + 2 - 1 = m + 1 := by omega
  rw [hm, initSlots_nil]
  rfl

/-- With population size one, initialization is just the unmutated patient. -/
theorem initialize_population_one (validFn : Program → Bool)
    (ich : ℕ → ℕ → Choices) (original : Program) (w : List (ℕ × ℚ)) :
    initialize_population validFn ich original w 1 = some [original] := rfl

/-- An empty battery gives every variant fitness zero. -/
theorem evaluate_file_empty {α : Type} [DecidableEq α]
    (loadRes : Option (TestCase α → Outcome α)) (pw nw mf : ℚ) :
    evaluate_file loadRes (⟨pw, nw, [], [], mf⟩ : Battery α) = 0 := by
  cases loadRes <;> rfl

/-- C7 (amended): with an empty battery every variant's fitness is 0 and the
F_max formula gives 0; with population size 1 the driver succeeds in its
first generation (which the source numbers 1, not 0) with the unmutated
patient; but with the default-style population size of at least 2 the driver
raises during population initialization (selection over the empty candidate
list), so it does not terminate in success. -/
theorem empty_battery_spec {α : Type} [DecidableEq α]
    (validFn : Program → Bool) (cov : TestCase α → Finset ℕ)
    (loadOf : Program → Option (TestCase α → Outcome α))
    (ich : ℕ → ℕ → Choices) (pk : ℕ → ℕ → ℕ) (rch : ℕ → ℕ → ℕ → Choices)
    (pw nw : ℚ) (original : Program) (numGens popSize : ℕ) :
    (∀ loadRes, evaluate_file loadRes (⟨pw, nw, [], [], 0⟩ : Battery α) = 0) ∧
    fMax (⟨pw, nw, [], [], 0⟩ : Battery α) = 0 ∧
    (1 ≤ numGens →
      run_evolution validFn cov loadOf ich pk rch
        (⟨pw, nw, [], [], 0⟩ : Battery α) original numGens 1 =
        .success original 1) ∧
    (2 ≤ popSize →
      run_evolution validFn cov loadOf ich pk rch
        (⟨pw, nw, [], [], 0⟩ : Battery α) original numGens popSize =
        .crashed) := by
  refine ⟨fun loadRes => evaluate_file_empty loadRes pw nw 0, ?_, ?_, ?_⟩
  · unfold fMax
    simp
  · intro hng
    obtain ⟨r, rfl⟩ : ∃ r, numGens = r + 1 := ⟨numGens - 1, by omega⟩
    unfold run_evolution
    dsimp only
    rw [run_fault_localization_empty, initialize_population_one]
    unfold evolutionLoop
    dsimp only
    rw [List.map_cons, List.map_nil, evaluate_file_empty]
    unfold scanScored
    rw [if_pos (le_refl (0 : ℚ))]
  · intro hpop
    unfold run_evolution
    dsimp only
    rw [run_fault_localization_empty,
      initialize_population_nil validFn ich original popSize hpop]

/-- C7 witness: the population-size-1 success branch at a concrete
instantiation. -/
theorem empty_battery_spec_witness :
    run_evolution (α := ℕ) (fun _ => true) (fun _ => ∅) (fun _ => none)
      (fun _ _ => ⟨0, 0, 0, 0, 0, 0⟩) (fun _ _ => 0)
      (fun _ _ _ => ⟨0, 0, 0, 0, 0, 0⟩)
      ⟨1, 10, [], [], 0⟩ ["x = 1\n".toList] 3 1 =
      .success ["x = 1\n".toList] 1 :=
  (empty_battery_spec (fun _ => true) (fun _ => ∅) (fun _ => none)
    (fun _ _ => ⟨0, 0, 0, 0, 0, 0⟩) (fun _ _ => 0)
    (fun _ _ _ => ⟨0, 0, 0, 0, 0, 0⟩)
    1 10 ["x = 1\n".toList] 3 1).2.2.1 (by norm_num)

/-- C7 counterexample: with an empty battery and the claim's universally
quantified patient run at population size 2, the driver raises during
initialization (ValueError in select_line_by_weight) rather than terminating
in success with the patient. -/
theorem empty_battery_counterexample :
    run_evolution (α := ℕ) (fun _ => true) (fun _ => ∅) (fun _ => none)
      (fun _ _ => ⟨0, 0, 0, 0, 0, 0⟩) (fun _ _ => 0)
      (fun _ _ _ => ⟨0, 0, 0, 0, 0, 0⟩)
      ⟨1, 10, [], [], 0⟩ ["x = 1\n".toList] 50 2 = .crashed := by
  unfold run_evolution
  dsimp only
  rw [run_fault_localization_empty,
    initialize_population_nil _ _ _ _ (by norm_num)]

end APR
